import Mathlib

/-!
Verification of the pyqstrat data-pipeline specification.
The repository ships `setup.py`, which builds a native extension from the
pipeline sources (`text_file_parsers.cpp`, `aggregators.cpp`,
`arrow_writer.cpp`, `text_file_processor.cpp`).  Those C++ sources are not
part of this tree, so the Line Parser, Aggregator, Columnar Writer and
Processor are modelled here from the specification's component contracts;
the `setup.py` helpers (`cpp_flag`, `build_extensions`, `read`) are embedded
directly from the Python source.  Numeric fields are modelled as exact
naturals, matching the spec's requirement of exact, platform-independent
numeric parsing.
-/

namespace Pyqstrat

/-- Modelled from the spec: a Record is one decoded input line, a fixed-arity
tuple of typed field values (grouping key, price, volume) plus a source
timestamp.  The C++ record type from `text_file_parsers.cpp` is not in the
tree. -/
structure Record where
  key : String
  price : Nat
  volume : Nat
  ts : Nat
deriving DecidableEq, Repr

/-- Modelled from the spec: a Bar is the aggregated summary over a time bucket
and grouping key, with open/high/low/close extrema, a count and a volume sum.
The C++ bar type from `aggregators.cpp` is not in the tree. -/
structure Bar where
  key : String
  bucket : Nat
  open_ : Nat
  high : Nat
  low : Nat
  close : Nat
  count : Nat
  volume : Nat
deriving DecidableEq, Repr

/-- Modelled from the spec: the half-open time bucket an event timestamp falls
into, for a configured `bucket_size`. -/
def timeBucket (bucketSize ts : Nat) : Nat := ts / bucketSize

/-- Modelled from the spec: the fresh open Bar created from the first Record of
a bucket. -/
def mkBar (bucketSize : Nat) (r : Record) : Bar :=
  { key := r.key, bucket := timeBucket bucketSize r.ts,
    open_ := r.price, high := r.price, low := r.price, close := r.price,
    count := 1, volume := r.volume }

/-- Modelled from the spec: folding one more Record into an open Bar updates
the extrema, the close, the count and the volume sum. -/
def foldBar (b : Bar) (r : Record) : Bar :=
  { b with high := max b.high r.price, low := min b.low r.price,
           close := r.price, count := b.count + 1, volume := b.volume + r.volume }

/-- Lookup of the open Bar for a grouping key in the Aggregator's
key-to-open-Bar mapping (an association list). -/
def getKey : List (String × Bar) → String → Option Bar
  | [], _ => none
  | (k, b) :: rest, k' => if k = k' then some b else getKey rest k'

/-- Replacement (or insertion) of the open Bar for a grouping key in the
Aggregator's key-to-open-Bar mapping. -/
def setKey : List (String × Bar) → String → Bar → List (String × Bar)
  | [], k, b => [(k, b)]
  | (k', b') :: rest, k, b =>
      if k' = k then (k, b) :: rest else (k', b') :: setKey rest k b

/-- Modelled from the spec: the Aggregator's per-Record step.  It locates or
creates the open Bar for the Record's grouping key; when the Record's bucket is
strictly greater than the open Bar's bucket the old Bar is sealed and emitted
and a new Bar begins, otherwise the Record is folded into the open Bar.  The
C++ aggregator from `aggregators.cpp` is not in the tree. -/
def aggStep (bucketSize : Nat) (s : List (String × Bar)) (r : Record) :
    List (String × Bar) × List Bar :=
  match getKey s r.key with
  | none => (setKey s r.key (mkBar bucketSize r), [])
  | some b =>
      if b.bucket < timeBucket bucketSize r.ts then
        (setKey s r.key (mkBar bucketSize r), [b])
      else
        (setKey s r.key (foldBar b r), [])

/-- Modelled from the spec: running the Aggregator over a Record sequence,
threading the open-Bar mapping and concatenating emissions in order. -/
def aggRun (bucketSize : Nat) (s : List (String × Bar)) :
    List Record → List (String × Bar) × List Bar
  | [] => (s, [])
  | r :: rs =>
      let p := aggStep bucketSize s r
      let q := aggRun bucketSize p.1 rs
      (q.1, p.2 ++ q.2)

/-- The open Bars held in an Aggregator state, in mapping order. -/
def openBars (s : List (String × Bar)) : List Bar := s.map Prod.snd

/-- Modelled from the spec: the full Bar stream of one file — the Bars emitted
while consuming the Records, followed by the remaining open Bars sealed and
emitted at end-of-file. -/
def aggregate (bucketSize : Nat) (rs : List Record) : List Bar :=
  let p := aggRun bucketSize [] rs
  p.2 ++ openBars p.1

/-- Aggregation soundness predicate on a Bar: `low ≤ open`, `low ≤ close`,
`open ≤ high`, `close ≤ high` and `count ≥ 1`. -/
def barWF (b : Bar) : Prop :=
  b.low ≤ b.open_ ∧ b.low ≤ b.close ∧ b.open_ ≤ b.high ∧ b.close ≤ b.high ∧
    1 ≤ b.count

instance : DecidablePred barWF := fun b => by
  unfold barWF; infer_instance

/-- Total `count` of the Bars carrying grouping key `k` in a Bar list. -/
def countFor (k : String) : List Bar → Nat
  | [] => 0
  | b :: bs => (if b.key = k then b.count else 0) + countFor k bs

/-- Number of Records carrying grouping key `k` in a Record list. -/
def recFor (k : String) : List Record → Nat
  | [] => 0
  | r :: rs => (if r.key = k then 1 else 0) + recFor k rs

/-- Total `count` of the open Bars for key `k` in an Aggregator state. -/
def stateCount (k : String) (s : List (String × Bar)) : Nat :=
  countFor k (openBars s)

/-- Every entry of the Aggregator mapping stores a Bar whose own grouping key
equals the entry's key. -/
def keysOK (s : List (String × Bar)) : Prop := ∀ p ∈ s, (p.2).key = p.1

/-- Modelled from the spec: tokenization of one raw line by the configured
delimiter (a comma).  The C++ tokenizer from `text_file_parsers.cpp` is not in
the tree. -/
def splitOnComma : List Char → List (List Char)
  | [] => [[]]
  | c :: rest =>
      match splitOnComma rest with
      | [] => [[]]
      | p :: ps => if c = ',' then [] :: p :: ps else (c :: p) :: ps

/-- Joining tokens back into one line with the comma delimiter. -/
def joinComma : List (List Char) → List Char
  | [] => []
  | [p] => p
  | p :: ps => p ++ ',' :: joinComma ps

/-- Numeric value of a decimal digit character, `none` on a non-digit. -/
def digitVal (c : Char) : Option Nat :=
  if c = '0' then some 0 else if c = '1' then some 1 else if c = '2' then some 2
  else if c = '3' then some 3 else if c = '4' then some 4 else if c = '5' then some 5
  else if c = '6' then some 6 else if c = '7' then some 7 else if c = '8' then some 8
  else if c = '9' then some 9 else none

/-- Decimal digit character of a value below ten. -/
def digitChar (d : Nat) : Char :=
  if d = 0 then '0' else if d = 1 then '1' else if d = 2 then '2'
  else if d = 3 then '3' else if d = 4 then '4' else if d = 5 then '5'
  else if d = 6 then '6' else if d = 7 then '7' else if d = 8 then '8' else '9'

/-- Modelled from the spec: exact decimal-to-value conversion of one numeric
token, accumulating digits left to right; fails on any non-digit. -/
def parseNatAux : List Char → Nat → Option Nat
  | [], acc => some acc
  | c :: cs, acc =>
      match digitVal c with
      | none => none
      | some d => parseNatAux cs (acc * 10 + d)

/-- Modelled from the spec: parsing one numeric token; the empty token is a
parse failure. -/
def parseNat (cs : List Char) : Option Nat :=
  if cs = [] then none else parseNatAux cs 0

/-- Fuelled decimal printer; `fuel` bounds the number of digits produced. -/
def printNatFuel : Nat → Nat → List Char
  | 0, _ => []
  | fuel + 1, n =>
      if n < 10 then [digitChar n]
      else printNatFuel fuel (n / 10) ++ [digitChar (n % 10)]

/-- Exact decimal serialization of a numeric field value. -/
def printNat (n : Nat) : List Char := printNatFuel (n + 1) n

/-- Modelled from the spec: the Line Parser converts one raw line into a typed
Record per the schema (grouping key, price, volume, timestamp, separated by the
configured comma delimiter), or reports a parse failure as `none`.  The C++
parser from `text_file_parsers.cpp` is not in the tree. -/
def parseRecord (line : List Char) : Option Record :=
  match splitOnComma line with
  | [kcs, pcs, vcs, tcs] =>
      match parseNat pcs, parseNat vcs, parseNat tcs with
      | some p, some v, some t =>
          some { key := String.mk kcs, price := p, volume := v, ts := t }
      | _, _, _ => none
  | _ => none

/-- Serialization of a Record's typed fields back into a delimited line. -/
def serializeRecord (r : Record) : List Char :=
  joinComma [r.key.data, printNat r.price, printNat r.volume, printNat r.ts]

/-- Modelled from the spec: the Columnar Writer's state — the active
ColumnBatch being filled and the batches already flushed, in flush order.  The
C++ writer from `arrow_writer.cpp` is not in the tree. -/
structure WState where
  active : List Bar
  flushed : List (List Bar)
deriving DecidableEq, Repr

/-- Modelled from the spec: the Writer appends one sealed Bar to the active
ColumnBatch and flushes the batch exactly when it reaches the configured
row-capacity. -/
def wStep (cap : Nat) (s : WState) (b : Bar) : WState :=
  let act := s.active ++ [b]
  if act.length = cap then { active := [], flushed := s.flushed ++ [act] }
  else { active := act, flushed := s.flushed }

/-- Running the Writer over a Bar stream in emission order. -/
def wRun (cap : Nat) (s : WState) : List Bar → WState
  | [] => s
  | b :: bs => wRun cap (wStep cap s b) bs

/-- Modelled from the spec: the output batches of a run — every batch flushed
at capacity, followed by the remaining partial batch flushed at end-of-file
when nonempty. -/
def writerBatches (cap : Nat) (bars : List Bar) : List (List Bar) :=
  let s := wRun cap { active := [], flushed := [] } bars
  if s.active = [] then s.flushed else s.flushed ++ [s.active]

/-- Modelled from the spec: RunStats, the process-wide counters (lines read,
records parsed, malformed lines skipped, bars emitted, bytes written).  The
C++ counters from `text_file_processor.cpp` are not in the tree. -/
structure RunStats where
  linesRead : Nat
  recordsParsed : Nat
  malformed : Nat
  barsEmitted : Nat
  bytesWritten : Nat
deriving DecidableEq, Repr

/-- Componentwise order on RunStats: no counter decreases. -/
def statsLe (a b : RunStats) : Prop :=
  a.linesRead ≤ b.linesRead ∧ a.recordsParsed ≤ b.recordsParsed ∧
    a.malformed ≤ b.malformed ∧ a.barsEmitted ≤ b.barsEmitted ∧
    a.bytesWritten ≤ b.bytesWritten

instance (a b : RunStats) : Decidable (statsLe a b) := by
  unfold statsLe; infer_instance

/-- Modelled from the spec: the per-file pipeline state threaded by the
Processor — counters, the Aggregator's open-Bar mapping, and the Bars already
emitted to the Writer. -/
structure PState where
  stats : RunStats
  aggState : List (String × Bar)
  emitted : List Bar
deriving DecidableEq, Repr

/-- The Processor's initial state: zeroed counters, empty mapping, nothing
emitted. -/
def initState : PState :=
  { stats := { linesRead := 0, recordsParsed := 0, malformed := 0,
               barsEmitted := 0, bytesWritten := 0 },
    aggState := [], emitted := [] }

/-- Modelled from the spec: the Processor's per-line step.  A malformed line is
skipped and counted (the parse failure is absorbed into RunStats, never
propagated); a well-formed line becomes a Record and is fed to the Aggregator.
The C++ processor from `text_file_processor.cpp` is not in the tree. -/
def procStep (bucketSize : Nat) (s : PState) (line : List Char) : PState :=
  match parseRecord line with
  | none =>
      { s with stats := { s.stats with
          linesRead := s.stats.linesRead + 1,
          malformed := s.stats.malformed + 1 } }
  | some r =>
      let p := aggStep bucketSize s.aggState r
      { stats := { s.stats with
          linesRead := s.stats.linesRead + 1,
          recordsParsed := s.stats.recordsParsed + 1,
          barsEmitted := s.stats.barsEmitted + p.2.length },
        aggState := p.1,
        emitted := s.emitted ++ p.2 }

/-- Modelled from the spec: the Processor's steady state, re-entered per
line. -/
def procRun (bucketSize : Nat) : PState → List (List Char) → PState
  | s, [] => s
  | s, line :: lines => procRun bucketSize (procStep bucketSize s line) lines

/-- Serialization of one sealed Bar into the columnar output, one delimited
row per Bar terminated by a newline. -/
def serializeBar (b : Bar) : List Char :=
  joinComma [b.key.data, printNat b.bucket, printNat b.open_, printNat b.high,
    printNat b.low, printNat b.close, printNat b.count, printNat b.volume] ++ ['\n']

/-- Serialization of the Writer's flushed batches into the bytes of the output
file. -/
def serializeOutput (batches : List (List Bar)) : List Char :=
  (batches.map (fun batch => (batch.map serializeBar).flatten)).flatten

/-- Modelled from the spec: end-of-file finalization — the Aggregator's
remaining open Bars are sealed and emitted, the Writer flushes every batch, and
the written bytes are counted.  Returns the final state and the output
bytes. -/
def procFinal (cap : Nat) (s : PState) : PState × List Char :=
  let bars := s.emitted ++ openBars s.aggState
  let out := serializeOutput (writerBatches cap bars)
  ({ stats := { s.stats with
        barsEmitted := s.stats.barsEmitted + (openBars s.aggState).length,
        bytesWritten := s.stats.bytesWritten + out.length },
     aggState := [],
     emitted := bars }, out)

/-- Modelled from the spec: one file's full pipeline run — Reader lines fed
through Parser, Aggregator and Writer, then finalized at end-of-file. -/
def pipeline (bucketSize cap : Nat) (lines : List (List Char)) : PState × List Char :=
  procFinal cap (procRun bucketSize initState lines)

/-- `cpp_flag` from `setup.py`: returns the `-std=c++14` flag when the compiler
supports it and raises `RuntimeError` otherwise.  The compiler probe
`has_flag` is abstracted as the predicate `hasFlag`. -/
def cpp_flag (hasFlag : String → Bool) : Except String String :=
  if hasFlag "-std=c++14" then Except.ok "-std=c++14"
  else Except.error "Unsupported compiler -- at least C++14 support is needed!"

/-- `BuildExt.c_opts` from `setup.py`, after the module-level darwin
adjustment: base compile options per compiler type. -/
def c_opts (isDarwin : Bool) (ct : String) : List String :=
  if ct = "msvc" then ["/EHsc"]
  else if ct = "unix" then
    (if isDarwin then ["-stdlib=libc++", "-mmacosx-version-min=10.7"] else [])
  else []

/-- `BuildExt.build_extensions` from `setup.py`: assembles the compile options
for the given compiler type, propagating the `RuntimeError` of `cpp_flag`. -/
def build_extensions (isDarwin : Bool) (hasFlag : String → Bool)
    (ct version : String) : Except String (List String) :=
  let opts := c_opts isDarwin ct
  if ct = "unix" then
    match cpp_flag hasFlag with
    | Except.error e => Except.error e
    | Except.ok flag =>
        let opts1 := opts ++ ["-DVERSION_INFO=\"" ++ version ++ "\"", flag]
        let opts2 := if hasFlag "-Ofast" then opts1 ++ ["-Ofast"] else opts1
        let opts3 := if hasFlag "-fvisibility=hidden" then
            opts2 ++ ["-fvisibility=hidden"] else opts2
        Except.ok opts3
  else if ct = "msvc" then
    Except.ok (opts ++ ["/DVERSION_INFO=\\\"" ++ version ++ "\\\""])
  else Except.ok opts

/-- Separator join used by `read` in `setup.py` (`sep.join(buf)`). -/
def joinSep (sep : String) : List String → String
  | [] => ""
  | [x] => x
  | x :: xs => x ++ sep ++ joinSep sep xs

/-- `read` from `setup.py`: reads each named file (the file system is
abstracted as the decoded-content map `fs`), appends the contents to a buffer
in argument order, and joins the buffer with the separator. -/
def read (fs : String → String) (filenames : List String) (sep : String) : String :=
  joinSep sep (filenames.foldl (fun buf fn => buf ++ [fs fn]) [])

/-- `long_description` from `setup.py`: `read('README.rst', 'CHANGES.txt')`
with the default separator. -/
def long_description (fs : String → String) : String :=
  read fs ["README.rst", "CHANGES.txt"] "\n"

/-- A well-formed demo input line, `A,5,2,30`. -/
def demoLine : List Char := ['A', ',', '5', ',', '2', ',', '3', '0']

/-- The Record parsed from `demoLine`. -/
def demoRec : Record := { key := "A", price := 5, volume := 2, ts := 30 }

/-- A later Record for the same key, one bucket further on. -/
def demoRec2 : Record := { key := "A", price := 7, volume := 1, ts := 70 }

/-- The open Bar created from `demoRec`. -/
def demoBar0 : Bar := mkBar 60 demoRec

/-- A simple sealed Bar used to exercise the Writer. -/
def demoBar (n : Nat) : Bar :=
  { key := "A", bucket := n, open_ := n, high := n, low := n, close := n,
    count := 1, volume := n }

/-- Five sealed Bars used to exercise the Writer. -/
def demoFiveBars : List Bar :=
  [demoBar 1, demoBar 2, demoBar 3, demoBar 4, demoBar 5]

theorem mkBar_key (bucketSize : Nat) (r : Record) : (mkBar bucketSize r).key = r.key := rfl

theorem mkBar_count (bucketSize : Nat) (r : Record) : (mkBar bucketSize r).count = 1 := rfl

theorem mkBar_bucket (bucketSize : Nat) (r : Record) :
    (mkBar bucketSize r).bucket = timeBucket bucketSize r.ts := rfl

theorem foldBar_key (b : Bar) (r : Record) : (foldBar b r).key = b.key := rfl

theorem foldBar_count (b : Bar) (r : Record) : (foldBar b r).count = b.count + 1 := rfl

theorem barWF_mkBar (bucketSize : Nat) (r : Record) : barWF (mkBar bucketSize r) := by
  simp [barWF, mkBar]

theorem barWF_foldBar (b : Bar) (r : Record) (h : barWF b) : barWF (foldBar b r) := by
  obtain ⟨h1, h2, h3, h4, h5⟩ := h
  refine ⟨?_, ?_, ?_, ?_, ?_⟩ <;> simp [foldBar] <;> omega

theorem getKey_mem {s : List (String × Bar)} {k : String} {b : Bar}
    (h : getKey s k = some b) : b ∈ openBars s := by
  induction s with
  | nil => simp [getKey] at h
  | cons p rest ih =>
      obtain ⟨k', b'⟩ := p
      by_cases hk : k' = k
      · simp [getKey, hk] at h
        simp [openBars, h]
      · simp [getKey, hk] at h
        simp [openBars] at ih ⊢
        exact Or.inr (ih h)

theorem mem_openBars_setKey {s : List (String × Bar)} {k : String} {b x : Bar}
    (h : x ∈ openBars (setKey s k b)) : x = b ∨ x ∈ openBars s := by
  induction s with
  | nil => simpa [setKey, openBars] using h
  | cons p rest ih =>
      obtain ⟨k', b'⟩ := p
      by_cases hk : k' = k
      · simp [setKey, hk, openBars] at h
        rcases h with h | h
        · exact Or.inl h
        · exact Or.inr (by simp [openBars, h])
      · simp [setKey, hk, openBars] at h ⊢
        rcases h with h | h
        · exact Or.inr (Or.inl h)
        · rcases ih (by simpa [openBars] using h) with h' | h'
          · exact Or.inl h'
          · exact Or.inr (Or.inr (by simpa [openBars] using h'))

theorem aggStep_WF {bucketSize : Nat} {s : List (String × Bar)} {r : Record}
    (hs : ∀ x ∈ openBars s, barWF x) :
    (∀ x ∈ openBars (aggStep bucketSize s r).1, barWF x) ∧
      (∀ x ∈ (aggStep bucketSize s r).2, barWF x) := by
  unfold aggStep
  cases hg : getKey s r.key with
  | none =>
      refine ⟨fun x hx => ?_, fun x hx => by simp at hx⟩
      rcases mem_openBars_setKey hx with h | h
      · exact h ▸ barWF_mkBar bucketSize r
      · exact hs x h
  | some b =>
      by_cases hb : b.bucket < timeBucket bucketSize r.ts
      · simp only [hb, if_true]
        refine ⟨fun x hx => ?_, fun x hx => ?_⟩
        · rcases mem_openBars_setKey hx with h | h
          · exact h ▸ barWF_mkBar bucketSize r
          · exact hs x h
        · simp at hx
          exact hx ▸ hs b (getKey_mem hg)
      · simp only [hb, if_false]
        refine ⟨fun x hx => ?_, fun x hx => by simp at hx⟩
        rcases mem_openBars_setKey hx with h | h
        · exact h ▸ barWF_foldBar b r (hs b (getKey_mem hg))
        · exact hs x h

theorem aggRun_WF {bucketSize : Nat} (rs : List Record) (s : List (String × Bar))
    (hs : ∀ x ∈ openBars s, barWF x) :
    (∀ x ∈ openBars (aggRun bucketSize s rs).1, barWF x) ∧
      (∀ x ∈ (aggRun bucketSize s rs).2, barWF x) := by
  induction rs generalizing s with
  | nil => exact ⟨hs, fun x hx => by simp [aggRun] at hx⟩
  | cons r rs ih =>
      obtain ⟨hstep1, hstep2⟩ := @aggStep_WF bucketSize s r hs
      obtain ⟨ih1, ih2⟩ := ih _ hstep1
      refine ⟨fun x hx => ih1 x (by simpa [aggRun] using hx), fun x hx => ?_⟩
      simp only [aggRun, List.mem_append] at hx
      rcases hx with hx | hx
      · exact hstep2 x hx
      · exact ih2 x hx

theorem aggregate_WF (bucketSize : Nat) (rs : List Record) :
    ∀ b ∈ aggregate bucketSize rs, barWF b := by
  intro b hb
  obtain ⟨h1, h2⟩ := @aggRun_WF bucketSize rs []
    (by intro x hx; simp [openBars] at hx)
  simp only [aggregate, List.mem_append] at hb
  rcases hb with hb | hb
  · exact h2 b hb
  · exact h1 b hb

theorem countFor_append (k : String) (a b : List Bar) :
    countFor k (a ++ b) = countFor k a + countFor k b := by
  induction a with
  | nil => simp [countFor]
  | cons x xs ih => simp [countFor, ih]; omega

theorem stateCount_setKey_none {s : List (String × Bar)} {k : String} (b : Bar)
    (k' : String) (h : getKey s k = none) :
    stateCount k' (setKey s k b) =
      stateCount k' s + (if b.key = k' then b.count else 0) := by
  induction s with
  | nil => simp [stateCount, setKey, openBars, countFor]
  | cons p rest ih =>
      obtain ⟨k1, b1⟩ := p
      by_cases hk : k1 = k
      · simp [getKey, hk] at h
      · simp only [getKey, hk, if_false] at h
        simp only [setKey, hk, if_false]
        simp only [stateCount, openBars, List.map_cons, countFor] at ih ⊢
        rw [ih h]
        omega

theorem stateCount_setKey_some {s : List (String × Bar)} {k : String} {b0 : Bar}
    (b : Bar) (k' : String) (h : getKey s k = some b0) :
    stateCount k' (setKey s k b) + (if b0.key = k' then b0.count else 0) =
      stateCount k' s + (if b.key = k' then b.count else 0) := by
  induction s with
  | nil => simp [getKey] at h
  | cons p rest ih =>
      obtain ⟨k1, b1⟩ := p
      by_cases hk : k1 = k
      · simp only [getKey, hk, if_true, Option.some.injEq] at h
        subst h
        simp only [setKey, hk, if_true]
        simp only [stateCount, openBars, List.map_cons, countFor]
        omega
      · simp only [getKey, hk, if_false] at h
        simp only [setKey, hk, if_false]
        simp only [stateCount, openBars, List.map_cons, countFor] at ih ⊢
        have := ih h
        omega

theorem keysOK_setKey {s : List (String × Bar)} {k : String} {b : Bar}
    (hs : keysOK s) (hb : b.key = k) : keysOK (setKey s k b) := by
  induction s with
  | nil =>
      intro p hp
      simp [setKey] at hp
      simp [hp, hb]
  | cons q rest ih =>
      obtain ⟨k1, b1⟩ := q
      intro p hp
      by_cases hk : k1 = k
      · simp only [setKey, hk, if_true] at hp
        rcases List.mem_cons.mp hp with h | h
        · simp [h, hb]
        · exact hs p (List.mem_cons_of_mem _ h)
      · simp only [setKey, hk, if_false] at hp
        rcases List.mem_cons.mp hp with h | h
        · exact hs p (h ▸ List.mem_cons_self _ _)
        · exact ih (fun q hq => hs q (List.mem_cons_of_mem _ hq)) p h

theorem getKey_keysOK {s : List (String × Bar)} {k : String} {b : Bar}
    (hs : keysOK s) (h : getKey s k = some b) : b.key = k := by
  induction s with
  | nil => simp [getKey] at h
  | cons p rest ih =>
      obtain ⟨k1, b1⟩ := p
      by_cases hk : k1 = k
      · simp only [getKey, hk, if_true, Option.some.injEq] at h
        have h1 := hs (k1, b1) (List.mem_cons_self _ _)
        rw [← h, ← hk]
        exact h1
      · simp only [getKey, hk, if_false] at h
        exact ih (fun q hq => hs q (List.mem_cons_of_mem _ hq)) h

theorem aggStep_keysOK {bucketSize : Nat} {s : List (String × Bar)} {r : Record}
    (hs : keysOK s) : keysOK (aggStep bucketSize s r).1 := by
  unfold aggStep
  cases hg : getKey s r.key with
  | none => exact @keysOK_setKey s r.key (mkBar bucketSize r) hs rfl
  | some b =>
      by_cases hb : b.bucket < timeBucket bucketSize r.ts
      · simpa [hb] using @keysOK_setKey s r.key (mkBar bucketSize r) hs rfl
      · have hkey : (foldBar b r).key = r.key := by
          rw [foldBar_key]
          exact getKey_keysOK hs hg
        simpa [hb] using @keysOK_setKey s r.key (foldBar b r) hs hkey

theorem aggStep_count {bucketSize : Nat} {s : List (String × Bar)} {r : Record}
    (k : String) (hs : keysOK s) :
    stateCount k (aggStep bucketSize s r).1 + countFor k (aggStep bucketSize s r).2 =
      stateCount k s + (if r.key = k then 1 else 0) := by
  unfold aggStep
  cases hg : getKey s r.key with
  | none =>
      simp only [countFor]
      rw [stateCount_setKey_none _ k hg]
      rw [mkBar_key, mkBar_count]
      omega
  | some b =>
      have hbk : b.key = r.key := getKey_keysOK hs hg
      by_cases hb : b.bucket < timeBucket bucketSize r.ts
      · simp only [hb, if_true, countFor]
        have h2 := stateCount_setKey_some (mkBar bucketSize r) k hg
        rw [mkBar_key, mkBar_count] at h2
        rw [hbk] at h2 ⊢
        omega
      · simp only [hb, if_false, countFor]
        have h2 := stateCount_setKey_some (foldBar b r) k hg
        rw [foldBar_key, foldBar_count] at h2
        rw [hbk] at h2
        by_cases hrk : r.key = k <;> simp only [hrk, if_true, if_false] at h2 ⊢ <;> omega

theorem aggRun_count {bucketSize : Nat} (rs : List Record) (s : List (String × Bar))
    (k : String) (hs : keysOK s) :
    stateCount k (aggRun bucketSize s rs).1 + countFor k (aggRun bucketSize s rs).2 =
      stateCount k s + recFor k rs := by
  induction rs generalizing s with
  | nil => simp [aggRun, countFor, recFor]
  | cons r rs ih =>
      have hstep := @aggStep_count bucketSize s r k hs
      have hkeys := @aggStep_keysOK bucketSize s r hs
      have hrest := ih _ hkeys
      simp only [aggRun, countFor_append, recFor]
      omega

theorem aggregate_count (bucketSize : Nat) (rs : List Record) (k : String) :
    countFor k (aggregate bucketSize rs) = recFor k rs := by
  have h := @aggRun_count bucketSize rs [] k (by intro p hp; simp at hp)
  simp only [stateCount, openBars, List.map_nil, countFor] at h
  simp only [aggregate, countFor_append, stateCount] at h ⊢
  simp only [openBars]
  omega

theorem digitVal_digitChar {d : Nat} (h : d < 10) : digitVal (digitChar d) = some d := by
  interval_cases d <;> decide

theorem digitChar_ne_comma (d : Nat) : digitChar d ≠ ',' := by
  unfold digitChar
  split_ifs <;> decide

theorem parseNatAux_append (cs : List Char) (c : Char) (acc : Nat) :
    parseNatAux (cs ++ [c]) acc =
      (parseNatAux cs acc).bind (fun m => (digitVal c).map (fun d => m * 10 + d)) := by
  induction cs generalizing acc with
  | nil => cases h : digitVal c <;> simp [parseNatAux, h]
  | cons c' cs ih =>
      cases h : digitVal c' <;> simp [parseNatAux, h, ih]

theorem printNatFuel_no_comma : ∀ fuel n, ',' ∉ printNatFuel fuel n := by
  intro fuel
  induction fuel with
  | zero => intro n h; simp [printNatFuel] at h
  | succ fuel ih =>
      intro n h
      unfold printNatFuel at h
      by_cases hn : n < 10
      · simp [hn] at h
        exact digitChar_ne_comma n h.symm
      · simp [hn] at h
        rcases h with h | h
        · exact ih _ h
        · exact digitChar_ne_comma (n % 10) h.symm

theorem printNat_no_comma (n : Nat) : ',' ∉ printNat n :=
  printNatFuel_no_comma (n + 1) n

theorem printNatFuel_ne_nil (fuel n : Nat) (h : 0 < fuel) : printNatFuel fuel n ≠ [] := by
  cases fuel with
  | zero => omega
  | succ fuel =>
      unfold printNatFuel
      by_cases hn : n < 10 <;> simp [hn]

theorem parseNatAux_printNatFuel : ∀ fuel n, n < fuel → parseNatAux (printNatFuel fuel n) 0 = some n := by
  intro fuel
  induction fuel with
  | zero => intro n h; omega
  | succ fuel ih =>
      intro n h
      unfold printNatFuel
      by_cases hn : n < 10
      · simp only [hn, if_true]
        simp [parseNatAux, digitVal_digitChar hn]
      · simp only [hn, if_false]
        rw [parseNatAux_append]
        have hdiv : n / 10 < fuel := by omega
        rw [ih (n / 10) hdiv]
        have hmod : n % 10 < 10 := by omega
        rw [Option.some_bind, digitVal_digitChar hmod, Option.map_some']
        congr 1
        omega

theorem parseNat_printNat (n : Nat) : parseNat (printNat n) = some n := by
  unfold parseNat printNat
  rw [if_neg (printNatFuel_ne_nil (n + 1) n (by omega))]
  exact parseNatAux_printNatFuel (n + 1) n (by omega)

theorem splitOnComma_ne_nil : ∀ cs, splitOnComma cs ≠ [] := by
  intro cs
  induction cs with
  | nil => simp [splitOnComma]
  | cons c rest ih =>
      unfold splitOnComma
      cases h : splitOnComma rest with
      | nil => simp
      | cons p ps => by_cases hc : c = ',' <;> simp [hc]

theorem mem_splitOnComma_no_comma : ∀ cs p, p ∈ splitOnComma cs → ',' ∉ p := by
  intro cs
  induction cs with
  | nil =>
      intro p hp
      simp [splitOnComma] at hp
      simp [hp]
  | cons c rest ih =>
      intro p hp
      unfold splitOnComma at hp
      cases h : splitOnComma rest with
      | nil => exact absurd h (splitOnComma_ne_nil rest)
      | cons q qs =>
          rw [h] at hp
          by_cases hc : c = ','
          · simp only [hc, if_true] at hp
            rcases List.mem_cons.mp hp with h1 | h1
            · simp [h1]
            · exact ih p (h ▸ h1)
          · simp only [hc, if_false] at hp
            rcases List.mem_cons.mp hp with h1 | h1
            · subst h1
              intro hmem
              rcases List.mem_cons.mp hmem with h2 | h2
              · exact hc h2.symm
              · exact ih q (h ▸ List.mem_cons_self q qs) h2
            · exact ih p (h ▸ List.mem_cons_of_mem q h1)

theorem splitOnComma_append (p cs q : List Char) (qs : List (List Char))
    (hp : ',' ∉ p) (h : splitOnComma cs = q :: qs) :
    splitOnComma (p ++ cs) = (p ++ q) :: qs := by
  induction p with
  | nil => simpa using h
  | cons c p' ih =>
      have hc : c ≠ ',' := fun hcc => hp (hcc ▸ List.mem_cons_self c p')
      have ih' := ih (fun hm => hp (List.mem_cons_of_mem c hm))
      simp only [List.cons_append]
      unfold splitOnComma
      rw [ih']
      simp [hc]

theorem splitOnComma_joinComma : ∀ parts, parts ≠ [] → (∀ p ∈ parts, ',' ∉ p) →
    splitOnComma (joinComma parts) = parts := by
  intro parts
  induction parts with
  | nil => intro h; exact absurd rfl h
  | cons p rest ih =>
      intro _ hnc
      cases rest with
      | nil =>
          show splitOnComma (joinComma [p]) = [p]
          have h0 : splitOnComma ([] : List Char) = [] :: [] := rfl
          have := splitOnComma_append p [] [] [] (hnc p (List.mem_cons_self p [])) h0
          simpa [joinComma] using this
      | cons q rest' =>
          have hrest := ih (by simp) (fun x hx => hnc x (List.mem_cons_of_mem p hx))
          show splitOnComma (p ++ ',' :: joinComma (q :: rest')) = p :: q :: rest'
          have hmid : splitOnComma (',' :: joinComma (q :: rest')) = [] :: q :: rest' := by
            unfold splitOnComma
            rw [hrest]
            simp
          have := splitOnComma_append p (',' :: joinComma (q :: rest')) [] (q :: rest')
            (hnc p (List.mem_cons_self p _)) hmid
          simpa using this

theorem parseRecord_joinComma (kcs : List Char) (p v t : Nat) (hk : ',' ∉ kcs) :
    parseRecord (joinComma [kcs, printNat p, printNat v, printNat t]) =
      some { key := String.mk kcs, price := p, volume := v, ts := t } := by
  have hnc : ∀ q ∈ [kcs, printNat p, printNat v, printNat t], ',' ∉ q := by
    intro q hq
    simp only [List.mem_cons, List.not_mem_nil, or_false] at hq
    rcases hq with h | h | h | h <;> subst h
    · exact hk
    · exact printNat_no_comma p
    · exact printNat_no_comma v
    · exact printNat_no_comma t
  have hsplit := splitOnComma_joinComma [kcs, printNat p, printNat v, printNat t]
    (by simp) hnc
  unfold parseRecord
  rw [hsplit]
  simp [parseNat_printNat]

theorem parseRecord_roundTrip {line : List Char} {r : Record}
    (h : parseRecord line = some r) :
    parseRecord (serializeRecord r) = some r := by
  unfold parseRecord at h
  split at h
  next kcs pcs vcs tcs heq =>
    split at h
    next p v t hp hv ht =>
      simp only [Option.some.injEq] at h
      subst h
      have hk : ',' ∉ kcs :=
        mem_splitOnComma_no_comma line kcs (by rw [heq]; simp)
      exact parseRecord_joinComma kcs p v t hk
    next => simp at h
  next => simp at h

theorem wRun_inv (cap : Nat) (bars : List Bar) (s : WState)
    (hflushed : ∀ f ∈ s.flushed, f.length = cap) (hactive : s.active.length < cap) :
    (∀ f ∈ (wRun cap s bars).flushed, f.length = cap) ∧
      (wRun cap s bars).active.length < cap ∧
      (wRun cap s bars).flushed.flatten ++ (wRun cap s bars).active =
        s.flushed.flatten ++ s.active ++ bars := by
  induction bars generalizing s with
  | nil => simpa [wRun] using ⟨hflushed, hactive⟩
  | cons b bs ih =>
      by_cases hfull : (s.active ++ [b]).length = cap
      · have hstep : wStep cap s b =
            { active := [], flushed := s.flushed ++ [s.active ++ [b]] } := by
          simp [wStep, hfull]
        have hf : ∀ f ∈ s.flushed ++ [s.active ++ [b]], f.length = cap := by
          intro f hf
          rcases List.mem_append.mp hf with h | h
          · exact hflushed f h
          · simp at h
            rw [h]
            exact hfull
        have ha : ([] : List Bar).length < cap := by
          simp only [List.length_nil]
          omega
        obtain ⟨i1, i2, i3⟩ := ih { active := [], flushed := s.flushed ++ [s.active ++ [b]] } hf ha
        refine ⟨?_, ?_, ?_⟩
        · simpa [wRun, hstep] using i1
        · simpa [wRun, hstep] using i2
        · simp only [wRun]
          rw [hstep, i3]
          simp
      · have hfull' : ¬s.active.length + 1 = cap := by
          intro hc
          exact hfull (by simp [hc])
        have hstep : wStep cap s b =
            { active := s.active ++ [b], flushed := s.flushed } := by
          simp [wStep, hfull']
        have ha : (s.active ++ [b]).length < cap := by
          have hlen : (s.active ++ [b]).length = s.active.length + 1 := by simp
          omega
        obtain ⟨i1, i2, i3⟩ := ih { active := s.active ++ [b], flushed := s.flushed } hflushed ha
        refine ⟨?_, ?_, ?_⟩
        · simpa [wRun, hstep] using i1
        · simpa [wRun, hstep] using i2
        · simp only [wRun]
          rw [hstep, i3]
          simp

theorem writerBatches_spec (cap : Nat) (bars : List Bar) (hcap : 0 < cap) :
    (writerBatches cap bars).flatten = bars ∧
      (∀ batch ∈ (writerBatches cap bars).dropLast, batch.length = cap) ∧
      (∀ batch ∈ writerBatches cap bars, batch.length ≤ cap ∧ batch ≠ []) := by
  obtain ⟨i1, i2, i3⟩ := wRun_inv cap bars { active := [], flushed := [] }
    (by intro f hf; simp at hf) (by simpa using hcap)
  simp only at i3
  unfold writerBatches
  by_cases hact : (wRun cap { active := [], flushed := [] } bars).active = []
  · simp only [hact, if_true]
    refine ⟨?_, ?_, ?_⟩
    · rw [hact] at i3
      simpa using i3
    · intro batch hb
      exact i1 batch (List.dropLast_subset _ hb)
    · intro batch hb
      have := i1 batch hb
      constructor
      · omega
      · intro hnil
        rw [hnil] at this
        simp at this
        omega
  · simp only [hact, if_false]
    refine ⟨?_, ?_, ?_⟩
    · simpa using i3
    · intro batch hb
      rw [List.dropLast_concat] at hb
      exact i1 batch hb
    · intro batch hb
      rcases List.mem_append.mp hb with h | h
      · have := i1 batch h
        constructor
        · omega
        · intro hnil
          rw [hnil] at this
          simp at this
          omega
      · simp at h
        subst h
        exact ⟨by omega, hact⟩

theorem procRun_agg (bucketSize : Nat) (lines : List (List Char)) (s : PState) :
    (procRun bucketSize s lines).aggState =
        (aggRun bucketSize s.aggState (lines.filterMap parseRecord)).1 ∧
      (procRun bucketSize s lines).emitted =
        s.emitted ++ (aggRun bucketSize s.aggState (lines.filterMap parseRecord)).2 := by
  induction lines generalizing s with
  | nil => simp [procRun, aggRun]
  | cons line lines ih =>
      cases hp : parseRecord line with
      | none =>
          have := ih { s with stats := { s.stats with
              linesRead := s.stats.linesRead + 1,
              malformed := s.stats.malformed + 1 } }
          simpa [procRun, procStep, hp] using this
      | some r =>
          obtain ⟨h1, h2⟩ := ih (procStep bucketSize s line)
          have ha : (procStep bucketSize s line).aggState =
              (aggStep bucketSize s.aggState r).1 := by
            simp [procStep, hp]
          have he : (procStep bucketSize s line).emitted =
              s.emitted ++ (aggStep bucketSize s.aggState r).2 := by
            simp [procStep, hp]
          rw [ha] at h1 h2
          rw [he] at h2
          simp only [procRun, List.filterMap_cons, hp, aggRun]
          exact ⟨h1, by rw [h2]; simp⟩

theorem procRun_malformed (bucketSize : Nat) (lines : List (List Char)) (s : PState) :
    (procRun bucketSize s lines).stats.malformed =
      s.stats.malformed + (lines.filter (fun l => (parseRecord l).isNone)).length := by
  induction lines generalizing s with
  | nil => simp [procRun]
  | cons line lines ih =>
      cases hp : parseRecord line with
      | none =>
          simp only [procRun, procStep, hp]
          rw [ih]
          simp [List.filter_cons, hp]
          omega
      | some r =>
          simp only [procRun, procStep, hp]
          rw [ih]
          simp [List.filter_cons, hp]

theorem getKey_setKey (s : List (String × Bar)) (k : String) (b : Bar) :
    getKey (setKey s k b) k = some b := by
  induction s with
  | nil => simp [setKey, getKey]
  | cons p rest ih =>
      obtain ⟨k1, b1⟩ := p
      by_cases hk : k1 = k
      · simp [setKey, hk, getKey]
      · simp [setKey, hk, getKey, ih]

theorem foldl_append_map (fs : String → String) (l : List String) (acc : List String) :
    l.foldl (fun buf fn => buf ++ [fs fn]) acc = acc ++ l.map fs := by
  induction l generalizing acc with
  | nil => simp
  | cons x xs ih => simp [List.foldl_cons, ih]

theorem pipeline_emitted (bucketSize cap : Nat) (lines : List (List Char)) :
    (pipeline bucketSize cap lines).1.emitted =
      aggregate bucketSize (lines.filterMap parseRecord) := by
  obtain ⟨h1, h2⟩ := procRun_agg bucketSize lines initState
  simp only [pipeline, procFinal]
  rw [h1, h2]
  simp [aggregate, initState]

/-- C1: for every run and every Bar emitted by the Aggregator, the Bar
satisfies `low ≤ open`, `low ≤ close`, `open ≤ high`, `close ≤ high` and
`count ≥ 1`. -/
theorem claim_C1 (bucketSize cap : Nat) (lines : List (List Char)) (b : Bar)
    (hb : b ∈ (pipeline bucketSize cap lines).1.emitted) : barWF b := by
  rw [pipeline_emitted] at hb
  exact aggregate_WF bucketSize (lines.filterMap parseRecord) b hb

/-- Witness for C1 at a concrete run of one well-formed line. -/
theorem claim_C1_witness :
    demoBar0 ∈ (pipeline 60 2 [demoLine]).1.emitted ∧ barWF demoBar0 :=
  ⟨by decide, claim_C1 60 2 [demoLine] demoBar0 (by decide)⟩

/-- C2: for every input and every grouping key, the sum of `bar.count` over
all Bars emitted for that key equals the number of successfully parsed Records
for that key — no parsed Record is dropped by the Aggregator. -/
theorem claim_C2 (bucketSize cap : Nat) (lines : List (List Char)) (k : String) :
    countFor k (pipeline bucketSize cap lines).1.emitted =
      recFor k (lines.filterMap parseRecord) := by
  rw [pipeline_emitted]
  exact aggregate_count bucketSize (lines.filterMap parseRecord) k

/-- C3: the Aggregator seals and emits a key's open Bar exactly when it
consumes a Record whose bucket is strictly greater than the open Bar's bucket,
then opens a new Bar for the Record's bucket; at end-of-file every remaining
open Bar is sealed and emitted.  Closure depends only on record buckets — the
model has no wall clock. -/
theorem claim_C3 (bucketSize : Nat) (s : List (String × Bar)) (r : Record)
    (rs : List Record) :
    ((aggStep bucketSize s r).2 ≠ [] ↔
        ∃ b, getKey s r.key = some b ∧ b.bucket < timeBucket bucketSize r.ts)
    ∧ (∀ b, getKey s r.key = some b → b.bucket < timeBucket bucketSize r.ts →
        (aggStep bucketSize s r).2 = [b] ∧
        getKey (aggStep bucketSize s r).1 r.key = some (mkBar bucketSize r) ∧
        (mkBar bucketSize r).bucket = timeBucket bucketSize r.ts)
    ∧ aggregate bucketSize rs =
        (aggRun bucketSize [] rs).2 ++ openBars (aggRun bucketSize [] rs).1 := by
  refine ⟨?_, ?_, rfl⟩
  · unfold aggStep
    cases hg : getKey s r.key with
    | none => simp
    | some b =>
        by_cases hb : b.bucket < timeBucket bucketSize r.ts
        · simp [hb]
        · simp only [hb, if_false]
          simp
          omega
  · intro b hg hb
    unfold aggStep
    rw [hg]
    simp only [hb, if_true]
    refine ⟨by simp, getKey_setKey s r.key (mkBar bucketSize r), rfl⟩

/-- Witness for C3: consuming a Record one bucket further on seals and emits
the open Bar and opens a fresh one for the new bucket. -/
theorem claim_C3_witness :
    (aggStep 60 [("A", demoBar0)] demoRec2).2 = [demoBar0] ∧
      getKey (aggStep 60 [("A", demoBar0)] demoRec2).1 "A" =
        some (mkBar 60 demoRec2) := by
  have h := (claim_C3 60 [("A", demoBar0)] demoRec2 []).2.1 demoBar0
    (by decide) (by decide)
  exact ⟨h.1, h.2.1⟩

/-- C4: a malformed line contributes to no Bar and increments the
malformed-line counter by exactly one; a well-formed line never increments it;
over a whole run the counter equals the number of malformed lines, so parse
failures are absorbed into RunStats and never abort the file. -/
theorem claim_C4 (bucketSize : Nat) (s : PState) (line : List Char)
    (lines : List (List Char)) :
    (parseRecord line = none →
        (procStep bucketSize s line).stats.malformed = s.stats.malformed + 1 ∧
        (procStep bucketSize s line).aggState = s.aggState ∧
        (procStep bucketSize s line).emitted = s.emitted)
    ∧ (∀ r, parseRecord line = some r →
        (procStep bucketSize s line).stats.malformed = s.stats.malformed)
    ∧ (procRun bucketSize initState lines).stats.malformed =
        (lines.filter (fun l => (parseRecord l).isNone)).length := by
  refine ⟨?_, ?_, ?_⟩
  · intro h
    simp [procStep, h]
  · intro r h
    simp [procStep, h]
  · rw [procRun_malformed]
    simp [initState]

/-- Witness for C4: a malformed line bumps the counter; a well-formed one does
not. -/
theorem claim_C4_witness :
    (procStep 60 initState ['x']).stats.malformed = initState.stats.malformed + 1 ∧
      (procStep 60 initState demoLine).stats.malformed = initState.stats.malformed := by
  refine ⟨((claim_C4 60 initState ['x'] []).1 (by decide)).1, ?_⟩
  exact (claim_C4 60 initState demoLine []).2.1 demoRec (by decide)

/-- C5: for every line valid with respect to the schema, parsing it into a
Record, serializing the Record's fields and reparsing the serialization yields
the original typed field values. -/
theorem claim_C5 {line : List Char} {r : Record} (h : parseRecord line = some r) :
    parseRecord (serializeRecord r) = some r :=
  parseRecord_roundTrip h

/-- Witness for C5 at the concrete demo line. -/
theorem claim_C5_witness : parseRecord (serializeRecord demoRec) = some demoRec :=
  @claim_C5 demoLine demoRec (by decide)

/-- C6: the Writer flushes the active ColumnBatch exactly when it reaches the
configured row-capacity or at end-of-file: every non-final batch has exactly
`cap` rows, batches concatenate to the emitted Bars, no batch is empty or over
capacity; with `batch_row_capacity = 2` and five Bars, exactly three batches
of sizes 2, 2, 1 result. -/
theorem claim_C6 :
    ((writerBatches 2 demoFiveBars).map List.length = [2, 2, 1])
    ∧ ∀ cap bars, 0 < cap →
        (writerBatches cap bars).flatten = bars ∧
        (∀ batch ∈ (writerBatches cap bars).dropLast, batch.length = cap) ∧
        (∀ batch ∈ writerBatches cap bars, batch.length ≤ cap ∧ batch ≠ []) := by
  refine ⟨by decide, ?_⟩
  intro cap bars hcap
  exact writerBatches_spec cap bars hcap

/-- Witness for C6 at the concrete capacity two and five demo Bars. -/
theorem claim_C6_witness : (writerBatches 2 demoFiveBars).flatten = demoFiveBars :=
  (claim_C6.2 2 demoFiveBars (by decide)).1

/-- C7: no pipeline step ever decreases a RunStats counter — both the per-line
step and end-of-file finalization only grow every counter. -/
theorem claim_C7 (bucketSize cap : Nat) (s : PState) (line : List Char) :
    statsLe s.stats (procStep bucketSize s line).stats ∧
      statsLe s.stats (procFinal cap s).1.stats := by
  constructor
  · cases h : parseRecord line <;> simp [procStep, h, statsLe]
  · simp [procFinal, statsLe]

/-- C8: running the pipeline twice on an unchanged input with identical
configuration produces byte-identical output. -/
theorem claim_C8 (b1 b2 c1 c2 : Nat) (l1 l2 : List (List Char))
    (hb : b1 = b2) (hc : c1 = c2) (hl : l1 = l2) :
    (pipeline b1 c1 l1).2 = (pipeline b2 c2 l2).2 := by
  subst hb
  subst hc
  subst hl
  rfl

/-- Witness for C8 at a concrete input, run twice. -/
theorem claim_C8_witness :
    (pipeline 60 2 [demoLine]).2 = (pipeline 60 2 [demoLine]).2 :=
  claim_C8 60 60 2 2 [demoLine] [demoLine] rfl rfl rfl

/-- C9: `cpp_flag` returns `-std=c++14` exactly when the compiler supports it
and raises `RuntimeError` otherwise; it never returns any other value, and a
successful `build_extensions` on a `unix` compiler implies C++14 support. -/
theorem claim_C9 (hasFlag : String → Bool) (isDarwin : Bool) (version : String) :
    (hasFlag "-std=c++14" = true → cpp_flag hasFlag = Except.ok "-std=c++14")
    ∧ (hasFlag "-std=c++14" = false →
        cpp_flag hasFlag =
          Except.error "Unsupported compiler -- at least C++14 support is needed!")
    ∧ (∀ s, cpp_flag hasFlag = Except.ok s → s = "-std=c++14")
    ∧ (∀ opts, build_extensions isDarwin hasFlag "unix" version = Except.ok opts →
        hasFlag "-std=c++14" = true) := by
  refine ⟨?_, ?_, ?_, ?_⟩
  · intro h
    simp [cpp_flag, h]
  · intro h
    simp [cpp_flag, h]
  · intro s h
    by_cases hf : hasFlag "-std=c++14" = true
    · simp [cpp_flag, hf] at h
      exact h.symm
    · simp [cpp_flag, hf] at h
  · intro opts h
    by_cases hf : hasFlag "-std=c++14" = true
    · exact hf
    · simp only [Bool.not_eq_true] at hf
      simp [build_extensions, cpp_flag, hf] at h

/-- Witness for C9: a compiler supporting C++14 gets the flag; one supporting
nothing raises the error. -/
theorem claim_C9_witness :
    cpp_flag (fun f => f == "-std=c++14") = Except.ok "-std=c++14" ∧
      cpp_flag (fun _ => false) =
        Except.error "Unsupported compiler -- at least C++14 support is needed!" := by
  refine ⟨(claim_C9 (fun f => f == "-std=c++14") false "").1 (by decide), ?_⟩
  exact (claim_C9 (fun _ => false) false "").2.1 rfl

/-- C10: `read` returns the contents of the named files joined in argument
order by the separator, and `long_description` is `README.rst`, a newline,
then `CHANGES.txt`. -/
theorem claim_C10 (fs : String → String) (filenames : List String) (sep : String) :
    read fs filenames sep = joinSep sep (filenames.map fs) ∧
      long_description fs = fs "README.rst" ++ "\n" ++ fs "CHANGES.txt" := by
  constructor
  · unfold read
    rw [foldl_append_map]
    simp
  · rfl

end Pyqstrat

